/-
Verification of the order-book synchronization and depth-aggregation engine
implemented in the repository's orderbook component (`src/unnamed/part_002`,
a Vue single-file component).  The component keeps the book in
`rawOrderbook = { bids, asks, lastUpdateId }`, where each side is an array of
`[price, amount]` string pairs; incoming depth messages are handled by
`updateOrderbook` / `applyDepthUpdate`, and the displayed book is derived by
`groupByPrecision` / `calculateDepth` / `processedOrderbook`.

Modelling conventions:
* JavaScript numbers are modelled as rationals (`ℚ`); the source never relies
  on binary floating-point artifacts in the properties considered here.
* `parseFloat` is modelled by `parseDec`, defined on plain decimal literals
  (optional sign, integer digits, optional fractional digits); `none` stands
  for `NaN`.
* `Array.prototype.sort` with a numeric comparator is modelled by the stable
  `List.insertionSort` (ES2019 requires `sort` to be stable, and the result of
  a stable sort is unique, so any stable sort models it).
* A change entry of a depth message that is not a well-formed
  `[price, amount]` pair (over which the source's destructuring
  `([price, amount]) => …` would throw mid-`forEach`) is modelled by
  `Chg.malformed`; the `try`/`catch` in `updateOrderbook` that swallows such
  an exception is modelled by the Boolean success flag threaded through
  `applyChanges` / `applyDepthUpdate`.
-/
import Mathlib

namespace OrderbookModel

/-- Base-10 value of a list of digit characters (the accumulation performed by
`parseFloat` on the digit runs of a decimal literal). -/
def digitsVal (cs : List Char) : Nat :=
  cs.foldl (fun n c => 10 * n + (c.toNat - 48)) 0

/-- Model of JavaScript `parseFloat` restricted to plain decimal literals:
an optional sign, a run of integer digits, and an optional `.` followed by a
run of fractional digits, with at least one digit overall.  Returns `none`
where `parseFloat` returns `NaN`. -/
def parseDec (s : String) : Option ℚ :=
  let cs := s.toList
  let signSplit : Bool × List Char :=
    match cs with
    | '-' :: t => (true, t)
    | '+' :: t => (false, t)
    | _ => (false, cs)
  let neg := signSplit.1
  let body := signSplit.2
  let intPart := body.takeWhile Char.isDigit
  let rest := body.dropWhile Char.isDigit
  let val? : Option ℚ :=
    match rest with
    | [] => if intPart.isEmpty then none else some (digitsVal intPart : ℚ)
    | '.' :: frac =>
      if frac.all Char.isDigit then
        if intPart.isEmpty && frac.isEmpty then none
        else some ((digitsVal intPart : ℚ) + (digitsVal frac : ℚ) / (10 : ℚ) ^ frac.length)
      else none
    | _ => none
  val?.map (fun v => if neg then -v else v)

/-- One side entry of the raw book: the `[price, amount]` string pair stored in
`rawOrderbook.bids` / `rawOrderbook.asks`. -/
abbrev Level := String × String

/-- The numeric price of a stored level: `parseFloat(level[0])`, the sort key
used by the comparators in `applyDepthUpdate`.  (On a level whose price string
does not parse, the JS comparator would return `NaN`, whose effect on `sort` is
implementation-defined; the model defaults such a key to `0`, and every theorem
about ordering assumes parseable prices.) -/
def priceVal (e : Level) : ℚ := (parseDec e.1).getD 0

/-- The state held in the component's `rawOrderbook` ref. -/
structure Orderbook where
  bids : List Level
  asks : List Level
  lastUpdateId : Int
deriving DecidableEq, Repr

/-- One element of a depth message's `bids` / `asks` array: either a
well-formed `[price, amount]` pair of strings, or a malformed element whose
destructuring would throw. -/
inductive Chg where
  | pair (price amount : String)
  | malformed
deriving DecidableEq, Repr

/-- A depth message as consumed by `updateOrderbook`:
`{ lastUpdateId, bids, asks }`. -/
structure DepthData where
  lastUpdateId : Int
  bids : List Chg
  asks : List Chg
deriving DecidableEq, Repr

/-- The body of the per-change arrow function in `applyDepthUpdate`:
`amountNum = parseFloat(amount)`; `index = side.findIndex(lvl => lvl[0] === price)`;
if `amountNum === 0` splice the found index out (no-op when absent), otherwise
overwrite the found index with `[price, amount]` or push `[price, amount]`. -/
def applyChange (side : List Level) (price amount : String) : List Level :=
  let amountNum := parseDec amount
  let index? := side.findIdx? (fun lvl => lvl.1 == price)
  if amountNum = some 0 then
    match index? with
    | some index => side.eraseIdx index
    | none => side
  else
    match index? with
    | some index => side.set index (price, amount)
    | none => side ++ [(price, amount)]

/-- The `forEach` over one side's change array.  The Boolean result records
whether the loop ran to completion: a malformed element throws, aborting the
loop and leaving the mutations made so far in place. -/
def applyChanges (side : List Level) : List Chg → List Level × Bool
  | [] => (side, true)
  | Chg.malformed :: _ => (side, false)
  | Chg.pair price amount :: rest => applyChanges (applyChange side price amount) rest

/-- Bid comparator: `(a, b) => parseFloat(b[0]) - parseFloat(a[0])` sorts by
numeric price, highest first. -/
def bidOrder (a b : Level) : Prop := priceVal b ≤ priceVal a

/-- Ask comparator: `(a, b) => parseFloat(a[0]) - parseFloat(b[0])` sorts by
numeric price, lowest first. -/
def askOrder (a b : Level) : Prop := priceVal a ≤ priceVal b

instance : DecidableRel bidOrder :=
  fun a b => inferInstanceAs (Decidable (priceVal b ≤ priceVal a))

instance : DecidableRel askOrder :=
  fun a b => inferInstanceAs (Decidable (priceVal a ≤ priceVal b))

instance : IsTotal Level bidOrder := ⟨fun a b => le_total (priceVal b) (priceVal a)⟩

instance : IsTrans Level bidOrder :=
  ⟨fun _ _ _ h h' => le_trans h' h⟩

instance : IsTotal Level askOrder := ⟨fun a b => le_total (priceVal a) (priceVal b)⟩

instance : IsTrans Level askOrder :=
  ⟨fun _ _ _ h h' => le_trans h h'⟩

/-- `bids.sort((a, b) => parseFloat(b[0]) - parseFloat(a[0]))`. -/
def sortBids (l : List Level) : List Level := List.insertionSort bidOrder l

/-- `asks.sort((a, b) => parseFloat(a[0]) - parseFloat(b[0]))`. -/
def sortAsks (l : List Level) : List Level := List.insertionSort askOrder l

/-- `applyDepthUpdate(data)`: run the bid changes, re-sort the bids, run the
ask changes, re-sort the asks.  The Boolean is `true` when no change element
threw; on a throw the source's exception propagates to `updateOrderbook`'s
`catch`, so the partially mutated sides (without the skipped re-sort and
without any later step) are what remains. -/
def applyDepthUpdate (book : Orderbook) (data : DepthData) : Orderbook × Bool :=
  let bidRun := applyChanges book.bids data.bids
  if bidRun.2 then
    let newBids := sortBids bidRun.1
    let askRun := applyChanges book.asks data.asks
    if askRun.2 then
      ({ book with bids := newBids, asks := sortAsks askRun.1 }, true)
    else
      ({ book with bids := newBids, asks := askRun.1 }, false)
  else
    ({ book with bids := bidRun.1 }, false)

/-- `updateOrderbook(data)`: discard the message when
`data.lastUpdateId <= rawOrderbook.lastUpdateId`; otherwise apply the depth
update and, when it completed without throwing, set
`rawOrderbook.lastUpdateId = data.lastUpdateId` (on a throw the `catch` block
only logs, so the id keeps its old value). -/
def updateOrderbook (book : Orderbook) (data : DepthData) : Orderbook :=
  if data.lastUpdateId ≤ book.lastUpdateId then book
  else
    let applied := applyDepthUpdate book data
    if applied.2 then { applied.1 with lastUpdateId := data.lastUpdateId } else applied.1

/-- Modelled from the spec: the snapshot payload returned by the market
store's `getOrderBook` (the market store module itself is not under `src/`);
per spec §6 it carries `bids` / `asks` as arrays of decimal-string
`[price, quantity]` pairs together with a sequence id. -/
structure Snapshot where
  bids : List Level
  asks : List Level
  lastUpdateId : Int
deriving DecidableEq, Repr

/-- `rawOrderbook.value = initialData` in `initOrderbook`: the snapshot
replaces the whole book state. -/
def loadSnapshot (s : Snapshot) : Orderbook :=
  { bids := s.bids, asks := s.asks, lastUpdateId := s.lastUpdateId }

/-- An event that mutates the book: a snapshot load (`initOrderbook`
resolving) or a depth message (`updateOrderbook`). -/
inductive Op where
  | snap (s : Snapshot)
  | diff (d : DepthData)
deriving DecidableEq, Repr

/-- One mutation step of the book state. -/
def step (b : Orderbook) : Op → Orderbook
  | Op.snap s => loadSnapshot s
  | Op.diff d => updateOrderbook b d

/-- The component's initial state is
`{ bids: [], asks: [], lastUpdateId: 0 }`; a book state is reachable when it
is produced from it by a sequence of snapshot loads and depth messages. -/
def run (ops : List Op) : Orderbook :=
  ops.foldl step { bids := [], asks := [], lastUpdateId := 0 }

/-- Model of `new Decimal(x).toFixed(precision)` under decimal.js's default
rounding mode (`ROUND_HALF_UP`: round to nearest, ties away from zero), as a
rational value.  The source keys its `Map` on the fixed-point string and
finally re-parses that string with `parseFloat`; at a fixed precision the
string and its numeric value determine one another, so the model works with
the value directly. -/
def roundHalfUp (q : ℚ) (precision : Nat) : ℚ :=
  if q < 0 then -(((⌊-q * 10 ^ precision + 1 / 2⌋ : ℤ) : ℚ) / 10 ^ precision)
  else ((⌊q * 10 ^ precision + 1 / 2⌋ : ℤ) : ℚ) / 10 ^ precision

/-- `grouped.set(roundedPrice, (grouped.get(roundedPrice) || 0) + amt)` on a JS
`Map`: update the entry with this key in place, or append a fresh entry at the
end (a `Map` iterates in insertion order). -/
def addToGroup (key amt : ℚ) : List (ℚ × ℚ) → List (ℚ × ℚ)
  | [] => [(key, amt)]
  | (p, a) :: t => if p = key then (p, a + amt) :: t else (p, a) :: addToGroup key amt t

/-- `const roundedPrice = new Decimal(price).toFixed(precision)`: the bucket
key of a raw level.  (On the plain decimal literals an order book carries, the
`Decimal` constructor and `parseFloat` agree, so the model reuses `priceVal`.) -/
def roundedPrice (precision : Nat) (e : Level) : ℚ := roundHalfUp (priceVal e) precision

/-- `parseFloat(amount)` of a raw level, defaulted like the other `NaN`
cases. -/
def amountVal (e : Level) : ℚ := (parseDec e.2).getD 0

/-- `groupByPrecision(orders, precision)`: bucket every `[price, amount]` entry
under its price rounded to `precision` decimal digits, summing amounts that
share a bucket, and return the buckets in insertion order as
`{ price, amount }` pairs. -/
def groupByPrecision (orders : List Level) (precision : Nat) : List (ℚ × ℚ) :=
  orders.foldl
    (fun grouped e => addToGroup (roundedPrice precision e) (amountVal e) grouped)
    []

/-- One entry produced by `calculateDepth` (the `isUpdated` / `changeType`
display-effect fields are omitted). -/
structure DepthLevel where
  price : ℚ
  amount : ℚ
  total : ℚ
  depthPercentage : ℚ
deriving DecidableEq, Repr

/-- `Math.max(...orders.map(order => order.amount))`.  On an empty side JS
yields `-Infinity`, which the source never consumes because the subsequent
`map` produces nothing; the model returns `0` in that unused case. -/
def maxAmount : List (ℚ × ℚ) → ℚ
  | [] => 0
  | (_, a) :: t => (t.map Prod.snd).foldl max a

/-- The `map` body of `calculateDepth`, threading the mutable `total`. -/
def calcDepthAux (m : ℚ) (total : ℚ) : List (ℚ × ℚ) → List DepthLevel
  | [] => []
  | (p, a) :: t =>
      { price := p, amount := a, total := total + a,
        depthPercentage := a / m * 100 } :: calcDepthAux m (total + a) t

/-- `calculateDepth(orders, type)`: cumulative running total plus
`depthPercentage = (order.amount / maxAmount) * 100`, where `maxAmount` ranges
over the whole aggregated side passed in (truncation to the display depth
happens later, in `processedOrderbook`).  The `type` argument does not affect
the computation. -/
def calculateDepth (orders : List (ℚ × ℚ)) : List DepthLevel :=
  calcDepthAux (maxAmount orders) 0 orders

/-- `processedOrderbook`: group each raw side at the current precision,
compute depth over the grouped side, then truncate both sides to
`currentDepth` entries. -/
def processedOrderbook (book : Orderbook) (precision depth : Nat) :
    List DepthLevel × List DepthLevel :=
  ((calculateDepth (groupByPrecision book.bids precision)).take depth,
   (calculateDepth (groupByPrecision book.asks precision)).take depth)

/-- `bestBid = displayBids[0]?.price || 0`, where
`displayBids = processedOrderbook.bids`. -/
def bestBid (book : Orderbook) (precision depth : Nat) : ℚ :=
  match (processedOrderbook book precision depth).1 with
  | [] => 0
  | l :: _ => l.price

/-- `bestAsk = displayAsks[displayAsks.length - 1]?.price || 0`, where
`displayAsks = processedOrderbook.asks.reverse()`: the last displayed ask
after reversal is the first (lowest-priced) entry of the processed ask side. -/
def bestAsk (book : Orderbook) (precision depth : Nat) : ℚ :=
  match (processedOrderbook book precision depth).2 with
  | [] => 0
  | l :: _ => l.price

/-- `spread = bestAsk - bestBid`. -/
def spread (book : Orderbook) (precision depth : Nat) : ℚ :=
  bestAsk book precision depth - bestBid book precision depth

/-- The component state relevant to the snapshot race on instrument switch:
the currently selected `props.symbol`, the book, and the symbols whose
`initOrderbook` snapshot fetch is still in flight. -/
structure Session where
  currentSymbol : String
  book : Orderbook
  pending : List String
deriving DecidableEq, Repr

/-- Session events: `switchTo sym` is the `watch(() => props.symbol)` handler
firing (it unsubscribes, then calls `initOrderbook()`, starting a new snapshot
fetch for `sym`); `fetchResolves sym snap` is the continuation of
`await marketStore.getOrderBook(...)` inside a previously started
`initOrderbook` call finally running. -/
inductive SessEv where
  | switchTo (sym : String)
  | fetchResolves (sym : String) (snap : Snapshot)
deriving DecidableEq, Repr

/-- One session step.  On `fetchResolves`, the source's continuation runs
`rawOrderbook.value = initialData` unconditionally — `initOrderbook` holds no
generation token and performs no symbol check after the `await` — so a
pending snapshot is stored into the live book whichever symbol it was
requested for.  (A resolution for a symbol with no pending fetch never occurs
and leaves the state unchanged.) -/
def sessStep (s : Session) : SessEv → Session
  | SessEv.switchTo sym =>
      { s with currentSymbol := sym, pending := s.pending ++ [sym] }
  | SessEv.fetchResolves sym snap =>
      if sym ∈ s.pending then
        { s with book := loadSnapshot snap, pending := s.pending.erase sym }
      else s

/-- A session as mounted on symbol `sym0` (`onMounted` runs `initOrderbook`,
so one fetch for `sym0` starts out pending), then driven by `evs`. -/
def sessRun (sym0 : String) (evs : List SessEv) : Session :=
  evs.foldl sessStep
    { currentSymbol := sym0,
      book := { bids := [], asks := [], lastUpdateId := 0 },
      pending := [sym0] }

/-! ## Well-formedness predicates

The source applies `parseFloat` to incoming strings without validation; the
invariants below therefore only hold for inputs whose strings parse.  The
predicates are `Bool`-valued where possible so that concrete instances can be
discharged by `decide`. -/

/-- The string parses as a decimal number (`parseFloat` would not yield `NaN`). -/
def parsesB (s : String) : Bool := (parseDec s).isSome

/-- The string parses and its value is nonnegative. -/
def qtyNonnegB (s : String) : Bool :=
  match parseDec s with
  | some q => decide (0 ≤ q)
  | none => false

/-- The string parses and its value is strictly positive. -/
def qtyPosB (s : String) : Bool :=
  match parseDec s with
  | some q => decide (0 < q)
  | none => false

/-- A stored level whose price parses and whose quantity parses to a positive
value. -/
def goodLevelB (e : Level) : Bool := parsesB e.1 && qtyPosB e.2

/-- A change entry that is a well-formed pair whose price parses and whose
quantity parses to a nonnegative value (zero meaning deletion). -/
def goodChgB : Chg → Bool
  | Chg.pair p a => parsesB p && qtyNonnegB a
  | Chg.malformed => false

/-- A well-formed raw side: price strings are pairwise distinct (as strings)
and every level is good. -/
def GoodSide (l : List Level) : Prop :=
  (l.map Prod.fst).Nodup ∧ ∀ e ∈ l, goodLevelB e = true

instance (l : List Level) : Decidable (GoodSide l) :=
  inferInstanceAs (Decidable ((l.map Prod.fst).Nodup ∧ ∀ e ∈ l, goodLevelB e = true))

/-- A depth message all of whose change entries are good. -/
def GoodDiff (d : DepthData) : Prop :=
  (∀ c ∈ d.bids, goodChgB c = true) ∧ ∀ c ∈ d.asks, goodChgB c = true

instance (d : DepthData) : Decidable (GoodDiff d) :=
  inferInstanceAs
    (Decidable ((∀ c ∈ d.bids, goodChgB c = true) ∧ ∀ c ∈ d.asks, goodChgB c = true))

/-- A well-formed snapshot: both sides good, bids sorted by descending and
asks by ascending numeric price. -/
def GoodSnap (s : Snapshot) : Prop :=
  GoodSide s.bids ∧ GoodSide s.asks ∧
    List.Sorted bidOrder s.bids ∧ List.Sorted askOrder s.asks

instance (s : Snapshot) : Decidable (GoodSnap s) :=
  inferInstanceAs
    (Decidable (GoodSide s.bids ∧ GoodSide s.asks ∧
      List.Sorted bidOrder s.bids ∧ List.Sorted askOrder s.asks))

/-- A well-formed book event. -/
def GoodOp : Op → Prop
  | Op.snap s => GoodSnap s
  | Op.diff d => GoodDiff d

instance : (op : Op) → Decidable (GoodOp op)
  | Op.snap s => inferInstanceAs (Decidable (GoodSnap s))
  | Op.diff d => inferInstanceAs (Decidable (GoodDiff d))

/-- The book invariant: both sides good, bids weakly descending and asks
weakly ascending by numeric price. -/
def Inv (b : Orderbook) : Prop :=
  GoodSide b.bids ∧ GoodSide b.asks ∧
    List.Sorted bidOrder b.bids ∧ List.Sorted askOrder b.asks

instance (b : Orderbook) : Decidable (Inv b) :=
  inferInstanceAs
    (Decidable (GoodSide b.bids ∧ GoodSide b.asks ∧
      List.Sorted bidOrder b.bids ∧ List.Sorted askOrder b.asks))

/-- Key insertion order of a JS `Map`: an existing key keeps its position, a
new key goes to the end. -/
def keyInsert (ks : List ℚ) (k : ℚ) : List ℚ :=
  if k ∈ ks then ks else ks ++ [k]

/-- The first occurrences of a list's elements, in input order: the key order
of a `Map` populated by repeated `set`. -/
def firstOccur (l : List ℚ) : List ℚ := l.foldl keyInsert []

/-- The total quantity a grouped side stores under one bucket key. -/
def amountOf (g : List (ℚ × ℚ)) (k : ℚ) : ℚ :=
  ((g.filter fun e => e.1 = k).map Prod.snd).sum

/-- Cumulative sums of a quantity list, continuing from `t` (the `total`
accumulator of `calculateDepth`). -/
def runningFrom (t : ℚ) : List ℚ → List ℚ
  | [] => []
  | a :: r => (t + a) :: runningFrom (t + a) r

/-! ## A structural characterization of `applyChange`

`applyChange` is written with `findIndex` / `splice` / index assignment /
`push`, exactly as the source; the equivalent recursive form below is what
the inductive proofs use. -/

/-- Recursive form of `applyChange`: walk to the first level whose price
string equals `price`; delete or overwrite it there, or append at the end
when no level matches. -/
def applyChangeRec (price amount : String) : List Level → List Level
  | [] => if parseDec amount = some 0 then [] else [(price, amount)]
  | e :: t =>
      if e.1 == price then
        (if parseDec amount = some 0 then t else (price, amount) :: t)
      else e :: applyChangeRec price amount t

/-- Modelled from the spec (§4.3): the direction-aware rounding the spec
claims for bids — round down to `precision` decimal digits (toward the
outside of the book).  Used only to compare the spec's words against the
source's half-up rounding. -/
def roundDownSpec (q : ℚ) (precision : Nat) : ℚ :=
  ((⌊q * 10 ^ precision⌋ : ℤ) : ℚ) / 10 ^ precision

/-- Event list for the C2 counterexample: one accepted diff carrying two
well-formed bid changes whose prices are textually different decimal
spellings of the same number. -/
def c2dupOps : List Op :=
  [Op.diff ⟨1, [Chg.pair "1.5" "1", Chg.pair "1.50" "2"], []⟩]

/-- Event list for the C2 witness: a well-formed snapshot followed by a
well-formed diff. -/
def c2goodOps : List Op :=
  [Op.snap ⟨[("101", "2"), ("100", "1")], [("102", "1")], 5⟩,
   Op.diff ⟨6, [Chg.pair "99.5" "1"], [Chg.pair "103" "2"]⟩]

/-- Book and diff for the C4 counterexample: the diff deletes the 100 level,
then hits a malformed entry, then would delete the 99 level. -/
def c4book : Orderbook := ⟨[("100", "1"), ("99", "2")], [("101", "1")], 5⟩

/-- See `c4book`. -/
def c4diff : DepthData :=
  ⟨6, [Chg.pair "100" "0", Chg.malformed, Chg.pair "99" "0"], []⟩

/-- Event list for the C5 counterexample: a sane snapshot (bid 100 / ask 101)
followed by an accepted diff inserting a bid at 102, above the best ask. -/
def c5ops : List Op :=
  [Op.snap ⟨[("100", "1")], [("101", "1")], 5⟩,
   Op.diff ⟨6, [Chg.pair "102" "1"], []⟩]

/-- Raw bid side for the C7 counterexample: quantities 1, 3, 4 from the best
price outward. -/
def c7book : Orderbook := ⟨[("3", "1"), ("2", "3"), ("1", "4")], [], 0⟩

/-- Snapshot of instrument A used in the C9 race. -/
def c9snapA : Snapshot := ⟨[("1", "1")], [("2", "1")], 7⟩

theorem applyChange_eq_rec (side : List Level) (price amount : String) :
    applyChange side price amount = applyChangeRec price amount side := by
  induction side with
  | nil =>
      simp only [applyChange, applyChangeRec, List.findIdx?_nil]
      split <;> rfl
  | cons e t ih =>
      simp only [applyChange, applyChangeRec, List.findIdx?_cons]
      by_cases hp : (e.1 == price) = true
      · simp [hp]
      · simp only [hp, Bool.false_eq_true, if_false]
        rw [List.findIdx?_succ]
        simp only [applyChange] at ih
        cases hfi : List.findIdx? (fun lvl => lvl.1 == price) t with
        | none =>
            rw [hfi] at ih
            simp only [Option.map_none']
            rw [← ih]
            by_cases ha : parseDec amount = some 0 <;> simp [ha]
        | some i =>
            rw [hfi] at ih
            simp only [Option.map_some']
            rw [← ih]
            by_cases ha : parseDec amount = some 0 <;>
              simp [ha, List.eraseIdx_cons_succ, List.set_cons_succ]

theorem applyChangeRec_del (side : List Level) (price amount : String)
    (ha : parseDec amount = some 0) :
    applyChangeRec price amount side = side.eraseP (fun lvl => lvl.1 == price) := by
  induction side with
  | nil => simp [applyChangeRec, ha]
  | cons e t ih =>
      by_cases hp : (e.1 == price) = true <;>
        simp [applyChangeRec, List.eraseP_cons, hp, ha, ih]

theorem mem_applyChangeRec {x : Level} {side : List Level} {price amount : String}
    (hx : x ∈ applyChangeRec price amount side) : x ∈ side ∨ x = (price, amount) := by
  induction side with
  | nil =>
      simp only [applyChangeRec] at hx
      split at hx <;> simp_all
  | cons e t ih =>
      simp only [applyChangeRec] at hx
      split at hx
      · split at hx <;> simp_all <;> tauto
      · rcases List.mem_cons.mp hx with hx | hx
        · subst hx; exact Or.inl (List.mem_cons_self _ _)
        · rcases ih hx with h | h
          · exact Or.inl (List.mem_cons_of_mem e h)
          · exact Or.inr h

theorem mem_fst_applyChangeRec {x : String} {side : List Level} {price amount : String}
    (hx : x ∈ (applyChangeRec price amount side).map Prod.fst) :
    x ∈ side.map Prod.fst ∨ x = price := by
  rcases List.mem_map.mp hx with ⟨e, he, rfl⟩
  rcases mem_applyChangeRec he with h | h
  · exact Or.inl (List.mem_map_of_mem Prod.fst h)
  · subst h; exact Or.inr rfl

theorem nodup_fst_applyChangeRec {side : List Level} (price amount : String)
    (h : (side.map Prod.fst).Nodup) :
    ((applyChangeRec price amount side).map Prod.fst).Nodup := by
  induction side with
  | nil =>
      simp only [applyChangeRec]
      split <;> simp
  | cons e t ih =>
      rw [List.map_cons, List.nodup_cons] at h
      simp only [applyChangeRec]
      by_cases hp : (e.1 == price) = true
      · have hep : e.1 = price := beq_iff_eq.mp hp
        simp only [hp, if_true]
        split
        · exact h.2
        · rw [List.map_cons, List.nodup_cons]
          exact ⟨fun hmem => h.1 (hep ▸ hmem), h.2⟩
      · simp only [hp, Bool.false_eq_true, if_false, List.map_cons, List.nodup_cons]
        refine ⟨fun hmem => ?_, ih h.2⟩
        rcases mem_fst_applyChangeRec hmem with hm | hm
        · exact h.1 hm
        · exact hp (beq_iff_eq.mpr hm)

theorem applyChangeRec_replace (side : List Level) (price amount : String)
    (ha : parseDec amount ≠ some 0) (h : (side.map Prod.fst).Nodup) :
    applyChangeRec price amount side =
      if price ∈ side.map Prod.fst then
        side.map (fun lvl => if lvl.1 = price then (price, amount) else lvl)
      else side ++ [(price, amount)] := by
  induction side with
  | nil => simp [applyChangeRec, ha]
  | cons e t ih =>
      rw [List.map_cons, List.nodup_cons] at h
      simp only [applyChangeRec]
      by_cases hp : e.1 = price
      · have ht : ∀ lvl ∈ t, (if lvl.1 = price then (price, amount) else lvl) = lvl := by
          intro lvl hlvl
          have hne : lvl.1 ≠ price := fun hc =>
            h.1 (hp ▸ hc ▸ List.mem_map_of_mem Prod.fst hlvl)
          simp [hne]
        have hpb : (e.1 == price) = true := beq_iff_eq.mpr hp
        simp [hpb, ha, hp, List.map_congr_left ht, List.mem_cons]
      · have hpb : ¬ (e.1 == price) = true := fun hc => hp (beq_iff_eq.mp hc)
        simp only [hpb, Bool.false_eq_true, if_false]
        rw [ih h.2]
        by_cases hmem : price ∈ t.map Prod.fst
        · simp [List.map_cons, List.mem_cons, hmem, hp, Ne.symm hp]
        · simp [List.map_cons, List.mem_cons, hmem, hp, Ne.symm hp]

/-! ## Preservation of side goodness -/

theorem goodSide_of_perm {l l' : List Level} (hp : List.Perm l l') (h : GoodSide l) :
    GoodSide l' :=
  ⟨((hp.map Prod.fst).nodup_iff).mp h.1, fun e he => h.2 e (hp.mem_iff.mpr he)⟩

theorem goodSide_applyChange {side : List Level} {price amount : String}
    (h : GoodSide side) (hp : parsesB price = true) (ha : qtyNonnegB amount = true) :
    GoodSide (applyChange side price amount) := by
  rw [applyChange_eq_rec]
  by_cases h0 : parseDec amount = some 0
  · rw [applyChangeRec_del side price amount h0]
    constructor
    · exact h.1.sublist ((List.eraseP_sublist side).map Prod.fst)
    · exact fun e he => h.2 e ((List.eraseP_sublist side).mem he)
  · refine ⟨nodup_fst_applyChangeRec price amount h.1, fun e he => ?_⟩
    rcases mem_applyChangeRec he with hm | hm
    · exact h.2 e hm
    · subst hm
      have hq : qtyPosB amount = true := by
        unfold qtyNonnegB at ha
        unfold qtyPosB
        cases hpa : parseDec amount with
        | none => rw [hpa] at ha; exact absurd ha (by simp)
        | some q =>
            rw [hpa] at ha
            have hq0 : ¬ q = 0 := fun hc => h0 (hc ▸ hpa)
            have : (0 : ℚ) ≤ q := of_decide_eq_true ha
            exact decide_eq_true (lt_of_le_of_ne this (Ne.symm hq0))
      exact by simp [goodLevelB, hp, hq]

theorem applyChanges_ok {side : List Level} {chgs : List Chg}
    (h : ∀ c ∈ chgs, c ≠ Chg.malformed) : (applyChanges side chgs).2 = true := by
  induction chgs generalizing side with
  | nil => rfl
  | cons c rest ih =>
      cases c with
      | malformed => exact absurd rfl (h Chg.malformed (List.mem_cons_self _ _))
      | pair p a =>
          simp only [applyChanges]
          exact ih (fun c hc => h c (List.mem_cons_of_mem _ hc))

theorem goodSide_applyChanges {side : List Level} {chgs : List Chg}
    (h : GoodSide side) (hc : ∀ c ∈ chgs, goodChgB c = true) :
    GoodSide (applyChanges side chgs).1 := by
  induction chgs generalizing side with
  | nil => exact h
  | cons c rest ih =>
      cases c with
      | malformed =>
          have := hc Chg.malformed (List.mem_cons_self _ _)
          simp [goodChgB] at this
      | pair p a =>
          have hg := hc (Chg.pair p a) (List.mem_cons_self _ _)
          simp only [goodChgB, Bool.and_eq_true] at hg
          simp only [applyChanges]
          exact ih (goodSide_applyChange h hg.1 hg.2) (fun c hcc => hc c (List.mem_cons_of_mem _ hcc))

theorem inv_applyDepthUpdate {book : Orderbook} {d : DepthData}
    (hb : Inv book) (hd : GoodDiff d) :
    (applyDepthUpdate book d).2 = true ∧ Inv (applyDepthUpdate book d).1 := by
  have hokb : (applyChanges book.bids d.bids).2 = true :=
    applyChanges_ok fun c hc hcm => by
      subst hcm; simpa [goodChgB] using hd.1 _ hc
  have hoka : (applyChanges book.asks d.asks).2 = true :=
    applyChanges_ok fun c hc hcm => by
      subst hcm; simpa [goodChgB] using hd.2 _ hc
  have hgb : GoodSide (applyChanges book.bids d.bids).1 := goodSide_applyChanges hb.1 hd.1
  have hga : GoodSide (applyChanges book.asks d.asks).1 := goodSide_applyChanges hb.2.1 hd.2
  constructor
  · simp [applyDepthUpdate, hokb, hoka]
  · simp only [applyDepthUpdate, hokb, hoka, if_true]
    exact ⟨goodSide_of_perm
             (List.perm_insertionSort bidOrder (applyChanges book.bids d.bids).1).symm hgb,
           goodSide_of_perm
             (List.perm_insertionSort askOrder (applyChanges book.asks d.asks).1).symm hga,
           List.sorted_insertionSort bidOrder (applyChanges book.bids d.bids).1,
           List.sorted_insertionSort askOrder (applyChanges book.asks d.asks).1⟩

theorem inv_updateOrderbook {book : Orderbook} {d : DepthData}
    (hb : Inv book) (hd : GoodDiff d) : Inv (updateOrderbook book d) := by
  unfold updateOrderbook
  split
  · exact hb
  · have h := inv_applyDepthUpdate hb hd
    simp only [h.1, if_true]
    exact ⟨h.2.1, h.2.2.1, h.2.2.2.1, h.2.2.2.2⟩

theorem inv_foldl (b : Orderbook) (hb : Inv b) (ops : List Op)
    (hgood : ∀ op ∈ ops, GoodOp op) : Inv (ops.foldl step b) := by
  induction ops generalizing b with
  | nil => exact hb
  | cons op rest ih =>
      have hop := hgood op (List.mem_cons_self _ _)
      refine ih (step b op) ?_ fun o ho => hgood o (List.mem_cons_of_mem _ ho)
      cases op with
      | snap s => exact ⟨hop.1, hop.2.1, hop.2.2.1, hop.2.2.2⟩
      | diff d => exact inv_updateOrderbook hb hop

/-! ## Characterization of `groupByPrecision` -/

theorem addToGroup_fst (g : List (ℚ × ℚ)) (k a : ℚ) :
    (addToGroup k a g).map Prod.fst = keyInsert (g.map Prod.fst) k := by
  induction g with
  | nil => simp [addToGroup, keyInsert]
  | cons e t ih =>
      by_cases hp : e.1 = k
      · simp [addToGroup, keyInsert, hp, List.mem_cons]
      · by_cases hm : k ∈ t.map Prod.fst <;>
          simp [addToGroup, keyInsert, hp, Ne.symm hp, hm, ih, List.mem_cons]

theorem amountOf_nil (k : ℚ) : amountOf [] k = 0 := rfl

theorem amountOf_cons (p a : ℚ) (t : List (ℚ × ℚ)) (k : ℚ) :
    amountOf ((p, a) :: t) k = (if p = k then a else 0) + amountOf t k := by
  by_cases h : p = k <;> simp [amountOf, List.filter_cons, h]

theorem amountOf_addToGroup (g : List (ℚ × ℚ)) (k a k' : ℚ) :
    amountOf (addToGroup k a g) k' = amountOf g k' + if k = k' then a else 0 := by
  induction g with
  | nil =>
      by_cases h : k = k' <;> simp [addToGroup, amountOf_cons, amountOf_nil, h]
  | cons e t ih =>
      obtain ⟨p, b⟩ := e
      by_cases hp : p = k
      · subst hp
        by_cases h' : p = k' <;>
          simp [addToGroup, amountOf_cons, h'] <;> ring
      · simp only [addToGroup, if_neg hp, amountOf_cons, ih]
        ring

theorem groupFold_fst (orders : List Level) (precision : Nat) (acc : List (ℚ × ℚ)) :
    ((orders.foldl
        (fun grouped e => addToGroup (roundedPrice precision e) (amountVal e) grouped)
        acc).map Prod.fst) =
      orders.foldl (fun ks e => keyInsert ks (roundedPrice precision e))
        (acc.map Prod.fst) := by
  induction orders generalizing acc with
  | nil => rfl
  | cons e t ih => simp only [List.foldl_cons, ih, addToGroup_fst]

theorem groupFold_amount (orders : List Level) (precision : Nat) (acc : List (ℚ × ℚ))
    (k : ℚ) :
    amountOf
        (orders.foldl
          (fun grouped e => addToGroup (roundedPrice precision e) (amountVal e) grouped)
          acc) k =
      amountOf acc k +
        ((orders.filter fun e => roundedPrice precision e = k).map amountVal).sum := by
  induction orders generalizing acc with
  | nil => simp
  | cons e t ih =>
      simp only [List.foldl_cons, List.filter_cons, ih, amountOf_addToGroup]
      by_cases h : roundedPrice precision e = k <;> simp [h] <;> ring

/-- The grouped side's bucket keys are exactly the first occurrences of the
rounded input prices, in input order. -/
theorem groupByPrecision_keys (orders : List Level) (precision : Nat) :
    (groupByPrecision orders precision).map Prod.fst =
      firstOccur (orders.map (roundedPrice precision)) := by
  unfold groupByPrecision firstOccur
  rw [List.foldl_map]
  exact groupFold_fst orders precision []

/-- The quantity stored under a bucket key is the sum of the raw amounts whose
rounded price is that key. -/
theorem groupByPrecision_amount (orders : List Level) (precision : Nat) (k : ℚ) :
    amountOf (groupByPrecision orders precision) k =
      ((orders.filter fun e => roundedPrice precision e = k).map amountVal).sum := by
  unfold groupByPrecision
  rw [groupFold_amount orders precision [] k, amountOf_nil, zero_add]

theorem keyInsert_fold_extra (l : List ℚ) :
    ∀ acc : List ℚ, ∃ extra : List ℚ,
      l.foldl keyInsert acc = acc ++ extra ∧ extra.Sublist l := by
  induction l with
  | nil => exact fun acc => ⟨[], by simp⟩
  | cons k t ih =>
      intro acc
      by_cases hk : k ∈ acc
      · rcases ih acc with ⟨extra, he, hs⟩
        exact ⟨extra, by simpa [keyInsert, hk] using he, hs.cons k⟩
      · rcases ih (acc ++ [k]) with ⟨extra, he, hs⟩
        refine ⟨k :: extra, ?_, hs.cons₂ k⟩
        simpa [keyInsert, hk, List.append_assoc] using he

theorem firstOccur_sublist (l : List ℚ) : (firstOccur l).Sublist l := by
  rcases keyInsert_fold_extra l [] with ⟨extra, he, hs⟩
  simpa [firstOccur, he] using hs

theorem keyInsert_fold_nodup (l : List ℚ) :
    ∀ acc : List ℚ, acc.Nodup → (l.foldl keyInsert acc).Nodup := by
  induction l with
  | nil => exact fun acc h => h
  | cons k t ih =>
      intro acc hacc
      by_cases hk : k ∈ acc
      · simpa [keyInsert, hk] using ih acc hacc
      · have : (acc ++ [k]).Nodup := by
          simp [List.nodup_append, hacc, hk]
        simpa [keyInsert, hk] using ih (acc ++ [k]) this

theorem firstOccur_nodup (l : List ℚ) : (firstOccur l).Nodup :=
  keyInsert_fold_nodup l [] List.nodup_nil

/-! ## Characterization of `calculateDepth` -/

theorem calcDepthAux_price (m t : ℚ) (orders : List (ℚ × ℚ)) :
    (calcDepthAux m t orders).map (fun l => l.price) = orders.map Prod.fst := by
  induction orders generalizing t with
  | nil => rfl
  | cons e r ih => cases e; simp [calcDepthAux, ih]

theorem calcDepthAux_amount (m t : ℚ) (orders : List (ℚ × ℚ)) :
    (calcDepthAux m t orders).map (fun l => l.amount) = orders.map Prod.snd := by
  induction orders generalizing t with
  | nil => rfl
  | cons e r ih => cases e; simp [calcDepthAux, ih]

theorem calcDepthAux_total (m t : ℚ) (orders : List (ℚ × ℚ)) :
    (calcDepthAux m t orders).map (fun l => l.total) =
      runningFrom t (orders.map Prod.snd) := by
  induction orders generalizing t with
  | nil => rfl
  | cons e r ih => cases e; simp [calcDepthAux, runningFrom, ih]

theorem calcDepthAux_pct (m t : ℚ) (orders : List (ℚ × ℚ)) :
    (calcDepthAux m t orders).map (fun l => l.depthPercentage) =
      orders.map (fun e => e.2 / m * 100) := by
  induction orders generalizing t with
  | nil => rfl
  | cons e r ih => cases e; simp [calcDepthAux, ih]

theorem foldl_max_le (l : List ℚ) : ∀ a : ℚ, a ≤ l.foldl max a ∧
    ∀ x ∈ l, x ≤ l.foldl max a := by
  induction l with
  | nil => exact fun a => ⟨le_refl a, by simp⟩
  | cons b t ih =>
      intro a
      have h := ih (max a b)
      refine ⟨le_trans (le_max_left a b) h.1, ?_⟩
      intro x hx
      rcases List.mem_cons.mp hx with rfl | hx
      · exact le_trans (le_max_right a x) h.1
      · exact h.2 x hx

theorem foldl_max_mem (l : List ℚ) : ∀ a : ℚ, l.foldl max a = a ∨ l.foldl max a ∈ l := by
  induction l with
  | nil => exact fun a => Or.inl rfl
  | cons b t ih =>
      intro a
      rw [List.foldl_cons]
      rcases ih (max a b) with h | h
      · rcases max_choice a b with hab | hab
        · exact Or.inl (h.trans hab)
        · exact Or.inr (by rw [h, hab]; exact List.mem_cons_self _ _)
      · exact Or.inr (List.mem_cons_of_mem b h)

/-- `maxAmount` bounds every quantity of the side it is computed over. -/
theorem le_maxAmount (orders : List (ℚ × ℚ)) :
    ∀ e ∈ orders, e.2 ≤ maxAmount orders := by
  intro e he
  cases orders with
  | nil => cases he
  | cons f t =>
      obtain ⟨p, a⟩ := f
      rcases List.mem_cons.mp he with he | ht
      · subst he
        exact (foldl_max_le (t.map Prod.snd) a).1
      · exact (foldl_max_le (t.map Prod.snd) a).2 e.2
          (List.mem_map_of_mem Prod.snd ht)

/-- `maxAmount` of a non-empty side is one of its quantities. -/
theorem maxAmount_mem (orders : List (ℚ × ℚ)) (h : orders ≠ []) :
    maxAmount orders ∈ orders.map Prod.snd := by
  cases orders with
  | nil => exact absurd rfl h
  | cons f t =>
      obtain ⟨p, a⟩ := f
      rcases foldl_max_mem (t.map Prod.snd) a with hm | hm
      · simp [maxAmount, hm]
      · simp only [maxAmount, List.map_cons]
        exact List.mem_cons_of_mem a hm

/-! ## Remaining helper lemmas -/

theorem applyDepthUpdate_ok (book : Orderbook) {d : DepthData}
    (hb : ∀ c ∈ d.bids, c ≠ Chg.malformed) (ha : ∀ c ∈ d.asks, c ≠ Chg.malformed) :
    (applyDepthUpdate book d).2 = true := by
  unfold applyDepthUpdate
  simp [applyChanges_ok hb, applyChanges_ok ha]

theorem updateOrderbook_of_ok {book : Orderbook} {d : DepthData}
    (hlt : book.lastUpdateId < d.lastUpdateId)
    (hok : (applyDepthUpdate book d).2 = true) :
    updateOrderbook book d =
      { (applyDepthUpdate book d).1 with lastUpdateId := d.lastUpdateId } := by
  have h1 : ¬ (d.lastUpdateId ≤ book.lastUpdateId) := not_le.mpr hlt
  simp only [updateOrderbook, h1, if_false, hok, if_true]

/-! ## Claims -/

set_option maxRecDepth 2000 in
/-- **C1.**  The spec requires a diff whose sequence range skips ids (with
`syncId = 1000`, a diff covering `firstId = 1002 .. finalId = 1005`) to be
classified `GAP`, forcing a hard reset and resync.  The code's depth message
carries no `firstId` or `prevFinalId` at all (the model's `DepthData` mirrors
this) and `updateOrderbook` applies every message with
`lastUpdateId > syncId`: at the claimed input the diff is applied — the change
lands and `syncId` advances to 1005 — with no reset.  The second conjunct
records the `STALE` half of the claim, which the code does satisfy: a message
with `lastUpdateId <= syncId` leaves both sides and `syncId` exactly
unchanged. -/
theorem c1_gap_diff_is_applied :
    updateOrderbook ⟨[("100", "1")], [("101", "2")], 1000⟩
        ⟨1005, [Chg.pair "99" "3"], []⟩ =
      ⟨[("100", "1"), ("99", "3")], [("101", "2")], 1005⟩ ∧
    updateOrderbook ⟨[("100", "1")], [("101", "2")], 1000⟩
        ⟨1000, [Chg.pair "99" "3"], []⟩ =
      ⟨[("100", "1")], [("101", "2")], 1000⟩ := by
  with_unfolding_all decide

set_option maxRecDepth 2000 in
/-- **C2** (counterexample).  A reachable book state violates the claimed
invariant: one accepted diff with two well-formed bid changes whose price
strings are different decimal spellings of the same number ("1.5", "1.50")
leaves the bid side with two levels of equal numeric price — so the side is
neither duplicate-free in price nor strictly decreasing. -/
theorem c2_reachable_invariant_counterexample :
    ¬ (((run c2dupOps).bids.map priceVal).Nodup ∧
        List.Pairwise (fun x y : Level => priceVal y < priceVal x)
          (run c2dupOps).bids) := by
  with_unfolding_all decide

/-- **C2** (amended).  For every state reachable from the initial empty book
through well-formed snapshots (sorted sides, distinct price strings, positive
quantities) and well-formed diffs (pair entries with parseable prices and
nonnegative quantities): each side is *weakly* monotone in numeric price
(bids non-increasing, asks non-decreasing), its price *strings* are pairwise
distinct (levels with equal numeric price but different textual spellings may
coexist, as the counterexample shows), and every stored quantity parses to a
strictly positive value. -/
theorem c2_reachable_invariant (ops : List Op) (hgood : ∀ op ∈ ops, GoodOp op) :
    Inv (run ops) := by
  have h0 : Inv { bids := [], asks := [], lastUpdateId := 0 } := by
    refine ⟨⟨?_, ?_⟩, ⟨?_, ?_⟩, ?_, ?_⟩ <;> simp [List.Sorted]
  exact inv_foldl _ h0 ops hgood

set_option maxRecDepth 2000 in
/-- Witness for `c2_reachable_invariant` at a concrete event list. -/
theorem c2_reachable_invariant_witness :
    (∀ op ∈ c2goodOps, GoodOp op) ∧ Inv (run c2goodOps) :=
  ⟨by with_unfolding_all decide,
   c2_reachable_invariant c2goodOps (by with_unfolding_all decide)⟩

/-- **C3.**  Diff application semantics, exactly as claimed: a zero-quantity
change removes the (first, textually matching) level and is a no-op when the
price is absent (`eraseP`); a nonzero-quantity change replaces the stored
level outright — the stored quantity becomes the message's absolute value,
never a sum — or appends a new level when the price is absent; an accepted
message that applies fully sets `lastUpdateId` to the message's id; and the
spec's end-to-end example (snapshot bid 100/ask 101 at id 5, then a diff at
id 6 zeroing the 100 bid) yields an empty bid side with `syncId = 6`. -/
theorem c3_change_semantics :
    (∀ (side : List Level) (price amount : String), parseDec amount = some 0 →
        applyChange side price amount = side.eraseP (fun lvl => lvl.1 == price)) ∧
    (∀ (side : List Level) (price amount : String), parseDec amount ≠ some 0 →
        (side.map Prod.fst).Nodup →
        applyChange side price amount =
          if price ∈ side.map Prod.fst then
            side.map (fun lvl => if lvl.1 = price then (price, amount) else lvl)
          else side ++ [(price, amount)]) ∧
    (∀ (book : Orderbook) (d : DepthData), book.lastUpdateId < d.lastUpdateId →
        (∀ c ∈ d.bids, c ≠ Chg.malformed) → (∀ c ∈ d.asks, c ≠ Chg.malformed) →
        (updateOrderbook book d).lastUpdateId = d.lastUpdateId) ∧
    run [Op.snap ⟨[("100", "1")], [("101", "1")], 5⟩,
         Op.diff ⟨6, [Chg.pair "100" "0"], []⟩] =
      ⟨[], [("101", "1")], 6⟩ := by
  refine ⟨?_, ?_, ?_, ?_⟩
  · intro side price amount ha
    rw [applyChange_eq_rec, applyChangeRec_del side price amount ha]
  · intro side price amount ha h
    rw [applyChange_eq_rec, applyChangeRec_replace side price amount ha h]
  · intro book d hlt hb hask
    rw [updateOrderbook_of_ok hlt (applyDepthUpdate_ok book hb hask)]
  · with_unfolding_all decide

/-- Witness for `c3_change_semantics` at concrete inputs. -/
theorem c3_change_semantics_witness :
    applyChange [("100", "1")] "100" "0" =
      List.eraseP (fun lvl => lvl.1 == "100") [("100", "1")] ∧
    applyChange [("100", "1")] "100" "2" =
      (if "100" ∈ ([("100", "1")] : List Level).map Prod.fst then
        ([("100", "1")] : List Level).map
          (fun lvl => if lvl.1 = "100" then ("100", "2") else lvl)
      else [("100", "1")] ++ [("100", "2")]) ∧
    (updateOrderbook ⟨[], [], 0⟩ ⟨1, [], []⟩).lastUpdateId = 1 :=
  ⟨c3_change_semantics.1 _ "100" "0" (by with_unfolding_all decide),
   c3_change_semantics.2.1 _ "100" "2" (by with_unfolding_all decide) (by decide),
   c3_change_semantics.2.2.1 _ _ (by decide) (by decide) (by decide)⟩

set_option maxRecDepth 2000 in
/-- **C4** (counterexample).  Applying a diff is not atomic: on `c4book`
(bids 100 and 99), the diff `c4diff` deletes the 100 level, then throws on a
malformed entry, so the 99 deletion never runs and `lastUpdateId` is not
advanced — the resulting state is neither the original book nor a full
application, and the partially applied diff is observable. -/
theorem c4_atomicity_counterexample :
    updateOrderbook c4book c4diff ≠ c4book ∧
    ("99", "2") ∈ (updateOrderbook c4book c4diff).bids ∧
    ("100", "1") ∉ (updateOrderbook c4book c4diff).bids ∧
    (updateOrderbook c4book c4diff).lastUpdateId = 5 := by
  with_unfolding_all decide

/-- **C4** (amended).  Application is all-or-nothing only for diffs whose
change lists contain only well-formed `[price, amount]` pairs: such a diff
never aborts, and `updateOrderbook` either returns the book unchanged (stale
id) or the fully applied result with `lastUpdateId` set to the message's id.
A diff containing a malformed entry is applied up to that entry with the id
left unchanged, as the counterexample shows. -/
theorem c4_atomic_for_wellformed (book : Orderbook) (d : DepthData)
    (hb : ∀ c ∈ d.bids, c ≠ Chg.malformed) (ha : ∀ c ∈ d.asks, c ≠ Chg.malformed) :
    (applyDepthUpdate book d).2 = true ∧
      updateOrderbook book d =
        (if d.lastUpdateId ≤ book.lastUpdateId then book
         else { (applyDepthUpdate book d).1 with lastUpdateId := d.lastUpdateId }) := by
  have hok := applyDepthUpdate_ok book hb ha
  refine ⟨hok, ?_⟩
  by_cases hle : d.lastUpdateId ≤ book.lastUpdateId
  · simp [updateOrderbook, hle]
  · rw [if_neg hle]
    exact updateOrderbook_of_ok (lt_of_not_le hle) hok

/-- Witness for `c4_atomic_for_wellformed` at a concrete book and diff. -/
theorem c4_atomic_for_wellformed_witness :
    (applyDepthUpdate ⟨[("1", "1")], [], 0⟩ ⟨1, [Chg.pair "1" "0"], []⟩).2 = true ∧
      updateOrderbook ⟨[("1", "1")], [], 0⟩ ⟨1, [Chg.pair "1" "0"], []⟩ =
        (if (1 : Int) ≤ (0 : Int) then (⟨[("1", "1")], [], 0⟩ : Orderbook)
         else { (applyDepthUpdate ⟨[("1", "1")], [], 0⟩ ⟨1, [Chg.pair "1" "0"], []⟩).1 with
                  lastUpdateId := 1 }) :=
  c4_atomic_for_wellformed _ _ (by decide) (by decide)

set_option maxRecDepth 2000 in
/-- **C5** (counterexample).  A reachable state (snapshot bid 100 / ask 101,
then an accepted diff adding a bid at 102) has best bid 102 above best ask
101: the engine performs no crossing check, and the claimed invariant
`best bid < best ask` fails on a state in the code's steady (synced)
condition with both sides non-empty. -/
theorem c5_crossed_book_counterexample :
    ¬ (bestBid (run c5ops) 2 20 < bestAsk (run c5ops) 2 20) := by
  with_unfolding_all decide

set_option maxRecDepth 2000 in
/-- **C5** (amended).  `bestBid` / `bestAsk` / `spread` read the top of the
processed book (`spread = bestAsk - bestBid` always), but nothing enforces
bid/ask separation: a crossed book is reachable (via `c5ops`) and is directly
observable to consumers — best bid 102, best ask 101, spread −1.  The claimed
invariant holds only when the input stream itself never crosses the book. -/
theorem c5_crossing_not_enforced :
    (∀ (b : Orderbook) (precision depth : Nat),
        spread b precision depth = bestAsk b precision depth - bestBid b precision depth) ∧
    bestBid (run c5ops) 2 20 = 102 ∧ bestAsk (run c5ops) 2 20 = 101 ∧
    spread (run c5ops) 2 20 = -1 := by
  refine ⟨fun b precision depth => rfl, ?_⟩
  with_unfolding_all decide

/-- **C6** (counterexample).  Rounding is not direction-aware: for a bid side
holding the single level `0.9`, precision 0 yields the displayed price 1 —
`toFixed` rounds half-up regardless of side — whereas the claim requires bid
prices to round *down*, which would give 0. -/
theorem c6_rounding_direction_counterexample :
    groupByPrecision [("0.9", "1")] 0 = [(1, 1)] ∧
      (1 : ℚ) ≠ roundDownSpec (9 / 10) 0 := by
  constructor
  · with_unfolding_all decide
  · with_unfolding_all decide

set_option maxRecDepth 2000 in
/-- **C6** (amended).  `groupByPrecision` rounds every price — on either side
— to `precision` digits by round-half-up (ties away from zero), sums the
quantities of raw levels sharing a rounded price, outputs buckets keyed by
the first occurrence of each rounded price in input order (hence preserving
the input's sort order), and never emits two entries with the same price.
The claim's own aggregation example holds: `{100.001: 0.5, 100.004: 0.3}` at
precision 2 collapses to the single level `{100.00: 0.8}`. -/
theorem c6_grouping (orders : List Level) (precision : Nat) :
    ((groupByPrecision orders precision).map Prod.fst =
        firstOccur (orders.map (roundedPrice precision))) ∧
    (∀ k : ℚ, amountOf (groupByPrecision orders precision) k =
        ((orders.filter fun e => roundedPrice precision e = k).map amountVal).sum) ∧
    ((groupByPrecision orders precision).map Prod.fst).Nodup ∧
    (∀ r : ℚ → ℚ → Prop, (orders.map (roundedPrice precision)).Pairwise r →
        ((groupByPrecision orders precision).map Prod.fst).Pairwise r) ∧
    groupByPrecision [("100.001", "0.5"), ("100.004", "0.3")] 2 = [(100, 4 / 5)] := by
  refine ⟨groupByPrecision_keys orders precision,
          fun k => groupByPrecision_amount orders precision k, ?_, ?_, ?_⟩
  · rw [groupByPrecision_keys]
    exact firstOccur_nodup _
  · intro r hr
    rw [groupByPrecision_keys]
    exact hr.sublist (firstOccur_sublist _)
  · with_unfolding_all decide

set_option maxRecDepth 2000 in
/-- Witness for `c6_grouping`, instantiating its order-preservation conjunct
at a concrete strictly-descending bid side. -/
theorem c6_grouping_witness :
    ((groupByPrecision [("2.5", "1"), ("1.5", "2")] 0).map Prod.fst).Pairwise
      (fun a b : ℚ => b < a) :=
  (c6_grouping [("2.5", "1"), ("1.5", "2")] 0).2.2.2.1 _
    (by with_unfolding_all decide)

set_option maxRecDepth 2000 in
/-- **C7** (counterexample).  With a three-level side of quantities
`[1, 3, 4]` truncated to a display window of 2, the claim's formula
(`maxQuantityInWindow` = 3, rounded percents) predicts `[33, 100]`; the code
divides by the maximum of the *whole* aggregated side (4), computed before
truncation and without rounding, and displays `[25, 75]`. -/
theorem c7_depth_percent_counterexample :
    ((processedOrderbook c7book 0 2).1.map (fun l => l.depthPercentage)) = [25, 75] ∧
      ([25, 75] : List ℚ) ≠ [33, 100] ∧
      ([25, 75] : List ℚ) ≠ [100 / 3, 100] := by
  refine ⟨?_, by with_unfolding_all decide, by with_unfolding_all decide⟩
  with_unfolding_all decide

set_option maxRecDepth 2000 in
/-- **C7** (amended).  `calculateDepth` maps each aggregated level to its
price and amount, a `total` equal to the running sum of quantities from the
best price outward, and a `depthPercentage` equal to the exact (unrounded)
value `amount / maxAmount * 100`, where `maxAmount` is the maximum quantity
of the *entire* aggregated side; `processedOrderbook` truncates to the
display depth only afterwards, so the divisor is not the window maximum.  On
the empty side the output is empty and no division occurs.  The claim's
example holds because there truncation is absent: quantities `[1, 2, 4]`
give cumulative `[1, 3, 7]` and percents `[25, 50, 100]`. -/
theorem c7_depth_projection (orders : List (ℚ × ℚ)) :
    ((calculateDepth orders).map (fun l => l.price) = orders.map Prod.fst) ∧
    ((calculateDepth orders).map (fun l => l.amount) = orders.map Prod.snd) ∧
    ((calculateDepth orders).map (fun l => l.total) =
        runningFrom 0 (orders.map Prod.snd)) ∧
    ((calculateDepth orders).map (fun l => l.depthPercentage) =
        orders.map (fun e => e.2 / maxAmount orders * 100)) ∧
    (∀ e ∈ orders, e.2 ≤ maxAmount orders) ∧
    (orders ≠ [] → maxAmount orders ∈ orders.map Prod.snd) ∧
    (∀ (book : Orderbook) (precision depth : Nat),
        processedOrderbook book precision depth =
          ((calculateDepth (groupByPrecision book.bids precision)).take depth,
           (calculateDepth (groupByPrecision book.asks precision)).take depth)) ∧
    calculateDepth [] = [] ∧
    calculateDepth [(3, 1), (2, 2), (1, 4)] =
      [⟨3, 1, 1, 25⟩, ⟨2, 2, 3, 50⟩, ⟨1, 4, 7, 100⟩] := by
  refine ⟨calcDepthAux_price _ _ _, calcDepthAux_amount _ _ _, calcDepthAux_total _ _ _,
          calcDepthAux_pct _ _ _, le_maxAmount orders, maxAmount_mem orders,
          fun book precision depth => rfl, rfl, ?_⟩
  with_unfolding_all decide

/-- Witness for `c7_depth_projection`, instantiating its membership-hypothesis
conjuncts at a concrete singleton side. -/
theorem c7_depth_projection_witness :
    (((2 : ℚ), (5 : ℚ)).2 ≤ maxAmount [((2 : ℚ), (5 : ℚ))]) ∧
      maxAmount [((2 : ℚ), (5 : ℚ))] ∈ ([((2 : ℚ), (5 : ℚ))].map Prod.snd) :=
  ⟨(c7_depth_projection [((2 : ℚ), (5 : ℚ))]).2.2.2.2.1 _ (List.mem_singleton.mpr rfl),
   (c7_depth_projection [((2 : ℚ), (5 : ℚ))]).2.2.2.2.2.1 (by simp)⟩

set_option maxRecDepth 2000 in
/-- **C8.**  A message whose quantity string is non-numeric is *not* dropped:
`parseFloat("abc")` is `NaN`, which fails the `=== 0` deletion test, so the
raw pair `("100", "abc")` is stored in the book and `lastUpdateId` advances —
contradicting the claim that such a message leaves the book unchanged and
that no non-numeric value is ever stored. -/
theorem c8_malformed_quantity_stored :
    parseDec "abc" = none ∧
    ("100", "abc") ∈
      (updateOrderbook ⟨[("100", "1")], [("101", "2")], 10⟩
        ⟨11, [Chg.pair "100" "abc"], []⟩).bids ∧
    (updateOrderbook ⟨[("100", "1")], [("101", "2")], 10⟩
        ⟨11, [Chg.pair "100" "abc"], []⟩).lastUpdateId = 11 ∧
    updateOrderbook ⟨[("100", "1")], [("101", "2")], 10⟩
        ⟨11, [Chg.pair "100" "abc"], []⟩ ≠
      ⟨[("100", "1")], [("101", "2")], 10⟩ := by
  with_unfolding_all decide

set_option maxRecDepth 2000 in
/-- **C9.**  The snapshot race on instrument switch: a session mounted on
"A" (fetch pending), switched to "B" (new fetch pending), then receiving
A's late snapshot resolution, stores A's snapshot into the live book — the
`await` continuation in `initOrderbook` assigns `rawOrderbook.value`
unconditionally, with no generation token — so A's levels are observable
while "B" is the selected instrument, contradicting the claim that A's
snapshot is discarded. -/
theorem c9_stale_snapshot_applied :
    (sessRun "A" [SessEv.switchTo "B", SessEv.fetchResolves "A" c9snapA]).currentSymbol
        = "B" ∧
    (sessRun "A" [SessEv.switchTo "B", SessEv.fetchResolves "A" c9snapA]).book
        = loadSnapshot c9snapA ∧
    ("1", "1") ∈
      (sessRun "A" [SessEv.switchTo "B", SessEv.fetchResolves "A" c9snapA]).book.bids := by
  with_unfolding_all decide

set_option maxRecDepth 2000 in
/-- **C10.**  Level lookup is textual: on a book holding the bid `("1.5", 2)`,
a zero-quantity change at the numerically equal but textually different price
"1.50" deletes nothing (the level survives and the diff is otherwise a
no-op), and a nonzero change at "1.50" appends a second level whose numeric
price equals the stored one. -/
theorem c10_textual_price_matching :
    updateOrderbook ⟨[("1.5", "2")], [], 0⟩ ⟨1, [Chg.pair "1.50" "0"], []⟩ =
      ⟨[("1.5", "2")], [], 1⟩ ∧
    (updateOrderbook ⟨[("1.5", "2")], [], 0⟩ ⟨1, [Chg.pair "1.50" "3"], []⟩).bids =
      [("1.5", "2"), ("1.50", "3")] ∧
    priceVal ("1.5", "2") = priceVal ("1.50", "3") := by
  with_unfolding_all decide

end OrderbookModel
